import Mathlib

/-!
Verification of the UK number validator core (`src/classifyUkNumber.ts`):
the normaliser `normaliseToUkNational`, the digit-trie `buildIndex`, and the
classifier `classifyUkNumber` with its helpers `existsRuleThatStartsWithDigits`
and `hasDescendantRule`.

Strings are modelled as `List Char`.  The TypeScript field `prefix` is called
`pfx` here because `prefix` is a reserved word in Lean; everything else keeps
the source names.  JavaScript `Map` children are modelled as association lists
in insertion order, matching `Map`'s iteration-order guarantee.
-/

set_option maxHeartbeats 1000000

/-- The three classification outcomes (`enum NumberClass`). -/
inductive NumberClass where
  | NUMBER_VALID
  | NUMBER_INVALID
  | NUMBER_TOO_SHORT
deriving DecidableEq, Repr

/-- `interface ClassificationResult { class: NumberClass; provider?: string }`.
The `class` field is called `cls` (`class` is reserved in Lean). -/
structure ClassificationResult where
  cls : NumberClass
  provider : Option (List Char)
deriving DecidableEq, Repr

/-- `interface PrefixRule { prefix; totalLength; status; provider? }`.
The `prefix` field is called `pfx` (`prefix` is reserved in Lean). -/
structure PrefixRule where
  pfx : List Char
  totalLength : Nat
  status : List Char
  provider : Option (List Char)
deriving DecidableEq, Repr

/-- `interface PrefixIndex { children?: Map<string, PrefixIndex>; rules?: PrefixRule[] }`.
Children are kept as an association list in `Map` insertion order. -/
inductive PrefixIndex where
  | node : List (Char × PrefixIndex) → List PrefixRule → PrefixIndex

def PrefixIndex.children : PrefixIndex → List (Char × PrefixIndex)
  | .node cs _ => cs

def PrefixIndex.rules : PrefixIndex → List PrefixRule
  | .node _ rs => rs

/-- `Map.get(d)`: the value of the (unique) entry with key `d`, if any. -/
def getChild (cs : List (Char × PrefixIndex)) (d : Char) : Option PrefixIndex :=
  match cs.find? (fun p => p.1 == d) with
  | some p => some p.2
  | none => none

/-- `Map.set(d, t)`: update an existing entry in place, or append a new one
(JavaScript `Map` keeps insertion order). -/
def setChild : List (Char × PrefixIndex) → Char → PrefixIndex → List (Char × PrefixIndex)
  | [], d, t => [(d, t)]
  | (c, u) :: rest, d, t => if c == d then (d, t) :: rest else (c, u) :: setChild rest d t

/-- One iteration group of the `buildIndex` inner loop: walk/extend the trie
along the rule's digits and push the rule at the terminal node. -/
def insertRule : PrefixIndex → List Char → PrefixRule → PrefixIndex
  | .node cs rs, [], r => .node cs (rs ++ [r])
  | .node cs rs, d :: ds, r =>
    let child := match getChild cs d with
      | some c => c
      | none => .node [] []
    .node (setChild cs d (insertRule child ds r)) rs

/-- `buildIndex(rules)`: fold every rule into an initially empty root. -/
def buildIndex (rules : List PrefixRule) : PrefixIndex :=
  rules.foldl (fun t r => insertRule t r.pfx r) (.node [] [])

/-- `s.startsWith(pre)` on digit strings (argument order: `startsWith pre s`). -/
def startsWith : List Char → List Char → Bool
  | [], _ => true
  | _ :: _, [] => false
  | p :: ps, c :: cs => p == c && startsWith ps cs

/-- `normaliseToUkNational(input)`: strip non-digits, handle `0044`/`44`
international forms, accept a leading `1`, otherwise require a leading `0`. -/
def normaliseToUkNational (input : List Char) : Option (List Char) :=
  let digits := input.filter Char.isDigit
  if digits.isEmpty then none
  else if startsWith ('0' :: '0' :: '4' :: '4' :: []) digits then
    let rest := digits.drop 4
    if rest.isEmpty then none
    else if startsWith ('0' :: []) rest then some rest else some ('0' :: rest)
  else if startsWith ('4' :: '4' :: []) digits then
    let rest := digits.drop 2
    if rest.isEmpty then none
    else if startsWith ('0' :: []) rest then some rest else some ('0' :: rest)
  else if startsWith ('1' :: []) digits then some digits
  else if !startsWith ('0' :: []) digits then none
  else some digits

/-- ASCII lowering, the effect of the regex `i` flag on the status strings. -/
def lowerStr (s : List Char) : List Char := s.map Char.toLower

/-- Regex-style unanchored substring search: does `needle` occur in `hay`? -/
def containsSub (needle : List Char) : List Char → Bool
  | [] => startsWith needle []
  | c :: cs => startsWith needle (c :: cs) || containsSub needle cs

/-- `/unavailable|withdrawn|^free$/i.test(status)`: the two unanchored
alternatives are substring matches, the anchored one an exact match, all
case-insensitively. -/
def isDeadStatus (status : List Char) : Bool :=
  let l := lowerStr status
  containsSub ('u' :: 'n' :: 'a' :: 'v' :: 'a' :: 'i' :: 'l' :: 'a' :: 'b' :: 'l' :: 'e' :: []) l ||
  containsSub ('w' :: 'i' :: 't' :: 'h' :: 'd' :: 'r' :: 'a' :: 'w' :: 'n' :: []) l ||
  l == ('f' :: 'r' :: 'e' :: 'e' :: [])

/-- The walk loop of `classifyUkNumber`: descend one digit at a time,
concatenating each visited child's rule list; stop when a digit has no child. -/
def walkRules : PrefixIndex → List Char → List PrefixRule
  | _, [] => []
  | t, d :: ds =>
    match getChild t.children d with
    | none => []
    | some c => c.rules ++ walkRules c ds

/-- The loop of `existsRuleThatStartsWithDigits`: follow every digit,
failing as soon as one has no child. -/
def walkTo : PrefixIndex → List Char → Option PrefixIndex
  | t, [] => some t
  | t, d :: ds =>
    match getChild t.children d with
    | none => none
    | some c => walkTo c ds

mutual

/-- `hasDescendantRule(node)`: the node or some descendant carries a rule. -/
def hasDescendantRule : PrefixIndex → Bool
  | .node cs rs => !rs.isEmpty || hasAnyChildRule cs

/-- The `for (const child of node.children.values())` loop of
`hasDescendantRule`. -/
def hasAnyChildRule : List (Char × PrefixIndex) → Bool
  | [] => false
  | (_, t) :: rest => hasDescendantRule t || hasAnyChildRule rest

end

/-- `existsRuleThatStartsWithDigits(digits, idx)`. -/
def existsRuleThatStartsWithDigits (digits : List Char) (idx : PrefixIndex) : Bool :=
  match walkTo idx digits with
  | none => false
  | some n => hasDescendantRule n

/-- `classifyUkNumber(national, idx)`.  The early returns of the matched-rules
block become an `Option ClassificationResult` that falls through to the
descendant-rule fallback when `none`. -/
def classifyUkNumber (national : List Char) (idx : PrefixIndex) : ClassificationResult :=
  if national.isEmpty then { cls := .NUMBER_INVALID, provider := none }
  else
    let matchedRules := walkRules idx national
    let len := national.length
    let tiers : Option ClassificationResult :=
      if matchedRules.isEmpty then none
      else
        let live := matchedRules.filter (fun r => !isDeadStatus r.status)
        match live.find? (fun r => r.pfx == national) with
        | some exactMatch => some { cls := .NUMBER_VALID, provider := exactMatch.provider }
        | none =>
          match live.find? (fun r => decide (len < r.totalLength)) with
          | some tooShortMatch =>
            some { cls := .NUMBER_TOO_SHORT, provider := tooShortMatch.provider }
          | none =>
            match live.find? (fun r => r.totalLength == len) with
            | some validMatch => some { cls := .NUMBER_VALID, provider := validMatch.provider }
            | none => none
    match tiers with
    | some res => res
    | none =>
      if existsRuleThatStartsWithDigits national idx then
        { cls := .NUMBER_TOO_SHORT, provider := none }
      else { cls := .NUMBER_INVALID, provider := none }

/-- The rule list stored at the node reached by following `q` from `t`
(`[]` when the path leaves the trie).  Pure specification device. -/
def rulesAt : PrefixIndex → List Char → List PrefixRule
  | t, [] => t.rules
  | t, d :: ds =>
    match getChild t.children d with
    | none => []
    | some c => rulesAt c ds

/-- All non-empty initial segments of `s`, shortest first.  Specification
device describing the node path of the classifier walk. -/
def nonEmptyPrefixes : List Char → List (List Char)
  | [] => []
  | d :: ds => [d] :: (nonEmptyPrefixes ds).map (fun p => d :: p)

/-- No key occurs twice.  JavaScript `Map` keys are unique by construction;
the association-list model can represent states a `Map` cannot, so the
invariant is tracked explicitly and shown to hold for every built index. -/
def distinctKeys : List Char → Bool
  | [] => true
  | d :: rest => rest.all (fun e => !(e == d)) && distinctKeys rest

mutual

/-- Every node of the trie has distinct child keys. -/
def wfIndex : PrefixIndex → Bool
  | .node cs _ => distinctKeys (cs.map Prod.fst) && wfChildren cs

def wfChildren : List (Char × PrefixIndex) → Bool
  | [] => true
  | (_, t) :: rest => wfIndex t && wfChildren rest

end

/-- Sum of the `totalLength` fields; a size bound used to build a long enough
extension path.  Specification device. -/
def sumTL : List PrefixRule → Nat
  | [] => 0
  | r :: rs => r.totalLength + sumTL rs

/-- Maximum of the `totalLength` fields.  Specification device. -/
def maxTL : List PrefixRule → Nat
  | [] => 0
  | r :: rs => max r.totalLength (maxTL rs)

/-! ### Characterisations of the string helpers -/

theorem startsWith_iff : ∀ (p s : List Char), startsWith p s = true ↔ p <+: s
  | [], s => by simp [startsWith]
  | p :: ps, [] => by simp [startsWith]
  | p :: ps, c :: cs => by
    simp [startsWith, List.cons_prefix_cons, startsWith_iff ps cs, beq_iff_eq, and_comm]

theorem containsSub_iff (n : List Char) : ∀ (s : List Char), containsSub n s = true ↔ n <:+: s
  | [] => by simp [containsSub, startsWith_iff, List.infix_nil, List.prefix_nil]
  | c :: cs => by
    simp [containsSub, startsWith_iff, containsSub_iff n cs, List.infix_cons_iff]

/-! ### Association-list lemmas for the child maps -/

theorem getChild_nil (d : Char) : getChild [] d = none := rfl

theorem getChild_cons (c : Char) (u : PrefixIndex) (rest : List (Char × PrefixIndex)) (d : Char) :
    getChild ((c, u) :: rest) d = if c == d then some u else getChild rest d := by
  by_cases h : c == d <;> simp [getChild, List.find?_cons, h]

theorem getChild_setChild_self :
    ∀ (cs : List (Char × PrefixIndex)) (d : Char) (t : PrefixIndex),
      getChild (setChild cs d t) d = some t
  | [], d, t => by simp [setChild, getChild_cons]
  | (c, u) :: rest, d, t => by
    by_cases h : c == d
    · simp [setChild, h, getChild_cons]
    · simp [setChild, h, getChild_cons, getChild_setChild_self rest d t]

theorem getChild_setChild_ne :
    ∀ (cs : List (Char × PrefixIndex)) (d e : Char) (t : PrefixIndex), e ≠ d →
      getChild (setChild cs d t) e = getChild cs e
  | [], d, e, t, h => by
    simp [setChild, getChild_cons, getChild_nil]
    intro hde
    exact absurd hde.symm h
  | (c, u) :: rest, d, e, t, h => by
    by_cases hcd : (c == d) = true
    · have hc : c = d := by simpa [beq_iff_eq] using hcd
      subst hc
      have hne : ¬(c == e) = true := by
        simp only [beq_iff_eq]
        exact fun hce => h hce.symm
      simp [setChild, getChild_cons, hne]
    · simp [setChild, hcd, getChild_cons, getChild_setChild_ne rest d e t h]

/-! ### `rulesAt`: the rule list stored at the node reached by a digit path -/

theorem rulesAt_node_nil (cs : List (Char × PrefixIndex)) (rs : List PrefixRule) :
    rulesAt (.node cs rs) [] = rs := rfl

theorem rulesAt_node_cons (cs : List (Char × PrefixIndex)) (rs : List PrefixRule)
    (d : Char) (ds : List Char) :
    rulesAt (.node cs rs) (d :: ds) =
      match getChild cs d with
      | none => []
      | some c => rulesAt c ds := rfl

theorem rulesAt_empty : ∀ (q : List Char), rulesAt (.node [] []) q = []
  | [] => rfl
  | _ :: _ => by simp [rulesAt, PrefixIndex.children, getChild_nil]

theorem rulesAt_insertRule :
    ∀ (p : List Char) (t : PrefixIndex) (r : PrefixRule) (q : List Char),
      rulesAt (insertRule t p r) q = if q = p then rulesAt t q ++ [r] else rulesAt t q
  | [], .node cs rs, r, [] => by simp [insertRule, rulesAt, PrefixIndex.rules]
  | [], .node cs rs, r, e :: q' => by simp [insertRule, rulesAt, PrefixIndex.children]
  | d :: ds, .node cs rs, r, [] => by simp [insertRule, rulesAt, PrefixIndex.rules]
  | d :: ds, .node cs rs, r, e :: q' => by
    by_cases hed : e = d
    · subst hed
      cases hgc : getChild cs e with
      | none =>
        simp only [insertRule, rulesAt, PrefixIndex.children, hgc,
          getChild_setChild_self, rulesAt_insertRule ds _ r q']
        by_cases hq : q' = ds
        · simp [hq, rulesAt_empty]
        · simp [hq, rulesAt_empty, List.cons.injEq]
      | some c =>
        simp only [insertRule, rulesAt, PrefixIndex.children, hgc,
          getChild_setChild_self, rulesAt_insertRule ds _ r q']
        by_cases hq : q' = ds
        · simp [hq]
        · simp [hq, List.cons.injEq]
    · simp only [insertRule, rulesAt, PrefixIndex.children,
        getChild_setChild_ne cs d e _ hed]
      have : ¬(e :: q' = d :: ds) := by simp [hed]
      simp [this]

theorem rulesAt_foldl :
    ∀ (rules : List PrefixRule) (t : PrefixIndex) (q : List Char),
      rulesAt (rules.foldl (fun t r => insertRule t r.pfx r) t) q
        = rulesAt t q ++ rules.filter (fun r => r.pfx == q)
  | [], t, q => by simp
  | r :: rs, t, q => by
    rw [List.foldl_cons, rulesAt_foldl rs _ q, rulesAt_insertRule]
    by_cases h : q = r.pfx
    · simp [List.filter_cons, h, beq_iff_eq]
    · have : ¬(r.pfx == q) = true := by simp [beq_iff_eq]; exact fun hc => h hc.symm
      simp [List.filter_cons, this, h]

theorem rulesAt_buildIndex (rules : List PrefixRule) (q : List Char) :
    rulesAt (buildIndex rules) q = rules.filter (fun r => r.pfx == q) := by
  rw [buildIndex, rulesAt_foldl, rulesAt_empty]
  rfl

/-! ### The walk visits exactly the non-empty prefixes of the digit string -/

theorem nilPre (l : List Char) : [] <+: l := ⟨l, rfl⟩

theorem takePre (n : Nat) (l : List Char) : l.take n <+: l :=
  ⟨l.drop n, List.take_append_drop n l⟩

theorem mem_nonEmptyPrefixes : ∀ (s q : List Char), q ∈ nonEmptyPrefixes s ↔ q ≠ [] ∧ q <+: s
  | [], q => by
    constructor
    · intro h
      exact absurd h (by simp [nonEmptyPrefixes])
    · rintro ⟨hne, hpre⟩
      exact absurd (List.prefix_nil.mp hpre) hne
  | d :: ds, [] => by simp [nonEmptyPrefixes]
  | d :: ds, e :: q' => by
    constructor
    · intro h
      rcases List.mem_cons.mp h with h1 | h2
      · rcases List.cons.inj h1 with ⟨hed, hq0⟩
        subst hed; subst hq0
        exact ⟨by simp, List.cons_prefix_cons.mpr ⟨rfl, nilPre _⟩⟩
      · obtain ⟨p, hp, hpe⟩ := List.mem_map.mp h2
        obtain ⟨hde, hpq⟩ := List.cons.inj hpe
        subst hde; subst hpq
        exact ⟨by simp,
          List.cons_prefix_cons.mpr ⟨rfl, ((mem_nonEmptyPrefixes ds p).mp hp).2⟩⟩
    · rintro ⟨-, hpre⟩
      obtain ⟨hed, hq⟩ := List.cons_prefix_cons.mp hpre
      subst hed
      by_cases h0 : q' = []
      · subst h0
        simp [nonEmptyPrefixes]
      · exact List.mem_cons_of_mem _
          (List.mem_map.mpr ⟨q', (mem_nonEmptyPrefixes ds q').mpr ⟨h0, hq⟩, rfl⟩)

theorem walkRules_eq :
    ∀ (s : List Char) (t : PrefixIndex),
      walkRules t s = (nonEmptyPrefixes s).flatMap (fun p => rulesAt t p)
  | [], t => by simp [walkRules, nonEmptyPrefixes]
  | d :: ds, t => by
    cases t with
    | node cs rs =>
      simp only [walkRules, nonEmptyPrefixes, List.flatMap_cons, List.flatMap_map,
        PrefixIndex.children]
      cases hgc : getChild cs d with
      | none =>
        have h1 : rulesAt (.node cs rs) [d] = [] := by
          simp [rulesAt, PrefixIndex.children, hgc]
        have h2 : ∀ p, rulesAt (.node cs rs) (d :: p) = ([] : List PrefixRule) := by
          intro p
          simp [rulesAt, PrefixIndex.children, hgc]
        simp only [h1, List.nil_append]
        rw [List.flatMap_eq_nil_iff.mpr (fun p _ => h2 p)]
      | some c =>
        have h1 : rulesAt (.node cs rs) [d] = c.rules := by
          simp [rulesAt, PrefixIndex.children, hgc]
        have h2 : (fun p => rulesAt (.node cs rs) (d :: p)) = (fun p => rulesAt c p) := by
          funext p
          simp [rulesAt, PrefixIndex.children, hgc]
        simp only [h1, h2]
        rw [walkRules_eq ds c]

theorem walkRules_buildIndex (rules : List PrefixRule) (s : List Char) :
    walkRules (buildIndex rules) s =
      (nonEmptyPrefixes s).flatMap (fun p => rules.filter (fun r => r.pfx == p)) := by
  rw [walkRules_eq]
  exact List.flatMap_congr (fun p _ => rulesAt_buildIndex rules p)

theorem mem_walkRules_buildIndex (rules : List PrefixRule) (s : List Char) (r : PrefixRule) :
    r ∈ walkRules (buildIndex rules) s ↔ r ∈ rules ∧ r.pfx ≠ [] ∧ r.pfx <+: s := by
  rw [walkRules_buildIndex]
  simp only [List.mem_flatMap, List.mem_filter, beq_iff_eq]
  constructor
  · rintro ⟨p, hp, hr, hpfx⟩
    have := (mem_nonEmptyPrefixes s p).mp hp
    exact ⟨hr, by rw [hpfx]; exact this.1, by rw [hpfx]; exact this.2⟩
  · rintro ⟨hr, hne, hpfx⟩
    exact ⟨r.pfx, (mem_nonEmptyPrefixes s r.pfx).mpr ⟨hne, hpfx⟩, hr, rfl⟩

/-! ### Well-formedness of built indexes -/

theorem wfChildren_mem :
    ∀ (cs : List (Char × PrefixIndex)) (d : Char) (c : PrefixIndex),
      wfChildren cs = true → (d, c) ∈ cs → wfIndex c = true
  | (e, u) :: rest, d, c, hwf, hm => by
    rw [wfChildren, Bool.and_eq_true] at hwf
    rcases List.mem_cons.mp hm with h1 | h2
    · rcases Prod.mk.inj h1 with ⟨-, hc⟩
      rw [← hc] at hwf
      exact hwf.1
    · exact wfChildren_mem rest d c hwf.2 h2

theorem getChild_mem :
    ∀ (cs : List (Char × PrefixIndex)) (d : Char) (c : PrefixIndex),
      getChild cs d = some c → (d, c) ∈ cs
  | (e, u) :: rest, d, c, h => by
    rw [getChild_cons] at h
    by_cases hed : (e == d) = true
    · rw [if_pos hed] at h
      have : e = d := by simpa [beq_iff_eq] using hed
      subst this
      rcases Option.some.inj h with hc
      rw [← hc]
      exact List.mem_cons_self _ _
    · rw [if_neg hed] at h
      exact List.mem_cons_of_mem _ (getChild_mem rest d c h)

theorem getChild_of_mem_distinct :
    ∀ (cs : List (Char × PrefixIndex)) (d : Char) (c : PrefixIndex),
      distinctKeys (cs.map Prod.fst) = true → (d, c) ∈ cs → getChild cs d = some c
  | (e, u) :: rest, d, c, hdk, hm => by
    rw [List.map_cons, distinctKeys, Bool.and_eq_true] at hdk
    rcases List.mem_cons.mp hm with h1 | h2
    · rcases Prod.mk.inj h1 with ⟨hd, hc⟩
      subst hd; subst hc
      simp [getChild_cons]
    · have hde : ¬(e == d) = true := by
        intro hbe
        have he : e = d := by simpa [beq_iff_eq] using hbe
        have hdm : d ∈ rest.map Prod.fst := List.mem_map.mpr ⟨(d, c), h2, rfl⟩
        have := (List.all_eq_true.mp hdk.1) d hdm
        simp [he] at this
      rw [getChild_cons, if_neg hde]
      exact getChild_of_mem_distinct rest d c hdk.2 h2

theorem mem_setChild_keys :
    ∀ (cs : List (Char × PrefixIndex)) (d : Char) (t : PrefixIndex) (e : Char),
      e ∈ (setChild cs d t).map Prod.fst → e ∈ cs.map Prod.fst ∨ e = d
  | [], d, t, e, h => by
    simp [setChild] at h
    exact Or.inr h
  | (c, u) :: rest, d, t, e, h => by
    by_cases hcd : (c == d) = true
    · have : c = d := by simpa [beq_iff_eq] using hcd
      subst this
      simp only [setChild, beq_self_eq_true, if_pos, List.map_cons] at h
      rcases List.mem_cons.mp h with h1 | h2
      · exact Or.inr h1
      · exact Or.inl (List.mem_cons_of_mem _ h2)
    · simp only [setChild, hcd, if_neg, Bool.false_eq_true, not_false_iff,
        List.map_cons] at h
      rcases List.mem_cons.mp h with h1 | h2
      · exact Or.inl (by rw [List.map_cons]; exact h1 ▸ List.mem_cons_self _ _)
      · rcases mem_setChild_keys rest d t e h2 with h3 | h3
        · exact Or.inl (List.mem_cons_of_mem _ h3)
        · exact Or.inr h3

theorem distinctKeys_setChild :
    ∀ (cs : List (Char × PrefixIndex)) (d : Char) (t : PrefixIndex),
      distinctKeys (cs.map Prod.fst) = true →
      distinctKeys ((setChild cs d t).map Prod.fst) = true
  | [], d, t, _ => by simp [setChild, distinctKeys]
  | (c, u) :: rest, d, t, hdk => by
    rw [List.map_cons, distinctKeys, Bool.and_eq_true] at hdk
    by_cases hcd : (c == d) = true
    · have : c = d := by simpa [beq_iff_eq] using hcd
      subst this
      simp only [setChild, beq_self_eq_true, if_pos, List.map_cons, distinctKeys,
        Bool.and_eq_true]
      exact hdk
    · have hc : c = c := rfl
      simp only [setChild, hcd, if_neg, Bool.false_eq_true, not_false_iff,
        List.map_cons, distinctKeys, Bool.and_eq_true]
      refine ⟨List.all_eq_true.mpr ?_, distinctKeys_setChild rest d t hdk.2⟩
      intro e he
      simp only [Bool.not_eq_true']
      rcases mem_setChild_keys rest d t e he with h1 | h1
      · have := (List.all_eq_true.mp hdk.1) e h1
        simpa using this
      · subst h1
        refine beq_eq_false_iff_ne.mpr (fun hec => ?_)
        exact hcd (by simp only [beq_iff_eq]; exact hec.symm)

theorem wfChildren_setChild :
    ∀ (cs : List (Char × PrefixIndex)) (d : Char) (t : PrefixIndex),
      wfChildren cs = true → wfIndex t = true → wfChildren (setChild cs d t) = true
  | [], d, t, _, hwt => by simp [setChild, wfChildren, hwt]
  | (c, u) :: rest, d, t, hwf, hwt => by
    rw [wfChildren, Bool.and_eq_true] at hwf
    by_cases hcd : (c == d) = true
    · simp only [setChild, hcd, if_pos, wfChildren, Bool.and_eq_true]
      exact ⟨hwt, hwf.2⟩
    · simp only [setChild, hcd, if_neg, Bool.false_eq_true, not_false_iff, wfChildren,
        Bool.and_eq_true]
      exact ⟨hwf.1, wfChildren_setChild rest d t hwf.2 hwt⟩

theorem wfIndex_insertRule :
    ∀ (p : List Char) (t : PrefixIndex) (r : PrefixRule),
      wfIndex t = true → wfIndex (insertRule t p r) = true
  | [], .node cs rs, r, hwf => by
    rw [insertRule]
    rw [wfIndex] at hwf ⊢
    exact hwf
  | d :: ds, .node cs rs, r, hwf => by
    rw [wfIndex, Bool.and_eq_true] at hwf
    have hchild : wfIndex (match getChild cs d with
        | some c => c
        | none => PrefixIndex.node [] []) = true := by
      cases hgc : getChild cs d with
      | none => simp [wfIndex, wfChildren, distinctKeys]
      | some c => simpa [hgc] using wfChildren_mem cs d c hwf.2 (getChild_mem cs d c hgc)
    rw [insertRule, wfIndex, Bool.and_eq_true]
    exact ⟨distinctKeys_setChild cs d _ hwf.1,
      wfChildren_setChild cs d _ hwf.2 (wfIndex_insertRule ds _ r hchild)⟩

theorem wfIndex_foldl :
    ∀ (rules : List PrefixRule) (t : PrefixIndex), wfIndex t = true →
      wfIndex (rules.foldl (fun t r => insertRule t r.pfx r) t) = true
  | [], t, hwf => hwf
  | r :: rs, t, hwf => by
    rw [List.foldl_cons]
    exact wfIndex_foldl rs _ (wfIndex_insertRule r.pfx t r hwf)

theorem wfIndex_buildIndex (rules : List PrefixRule) : wfIndex (buildIndex rules) = true :=
  wfIndex_foldl rules _ (by simp [wfIndex, wfChildren, distinctKeys])

/-! ### `hasDescendantRule` finds exactly the subtrees that carry a rule -/

theorem hasAnyChildRule_iff :
    ∀ (cs : List (Char × PrefixIndex)),
      hasAnyChildRule cs = true ↔ ∃ p ∈ cs, hasDescendantRule p.2 = true
  | [] => by simp [hasAnyChildRule]
  | (d, t) :: rest => by
    rw [hasAnyChildRule, Bool.or_eq_true, hasAnyChildRule_iff rest]
    constructor
    · rintro (h | ⟨p, hp, hdp⟩)
      · exact ⟨(d, t), List.mem_cons_self _ _, h⟩
      · exact ⟨p, List.mem_cons_of_mem _ hp, hdp⟩
    · rintro ⟨p, hp, hdp⟩
      rcases List.mem_cons.mp hp with h1 | h2
      · rw [h1] at hdp
        exact Or.inl hdp
      · exact Or.inr ⟨p, h2, hdp⟩

theorem hasDescendantRule_of_rulesAt :
    ∀ (q : List Char) (t : PrefixIndex), rulesAt t q ≠ [] → hasDescendantRule t = true
  | [], .node cs rs, h => by
    rw [rulesAt_node_nil] at h
    rw [hasDescendantRule, Bool.or_eq_true]
    exact Or.inl (by simpa using h)
  | d :: ds, .node cs rs, h => by
    rw [rulesAt_node_cons] at h
    cases hgc : getChild cs d with
    | none =>
      rw [hgc] at h
      exact absurd rfl h
    | some c =>
      rw [hgc] at h
      have hdc := hasDescendantRule_of_rulesAt ds c h
      rw [hasDescendantRule, Bool.or_eq_true]
      exact Or.inr ((hasAnyChildRule_iff cs).mpr ⟨(d, c), getChild_mem cs d c hgc, hdc⟩)

theorem hasDescendantRule_to_rulesAt :
    ∀ (n : Nat) (t : PrefixIndex), sizeOf t ≤ n → wfIndex t = true →
      hasDescendantRule t = true → ∃ q, rulesAt t q ≠ []
  | 0, .node cs rs, hsz, _, _ => by
    rw [PrefixIndex.node.sizeOf_spec] at hsz
    omega
  | Nat.succ n, .node cs rs, hsz, hwf, hd => by
    rw [hasDescendantRule, Bool.or_eq_true] at hd
    rcases hd with h | h
    · refine ⟨[], ?_⟩
      rw [rulesAt_node_nil]
      simpa using h
    · obtain ⟨⟨d, c⟩, hmem, hdc⟩ := (hasAnyChildRule_iff cs).mp h
      rw [wfIndex, Bool.and_eq_true] at hwf
      have hwc : wfIndex c = true := wfChildren_mem cs d c hwf.2 hmem
      have hszc : sizeOf c ≤ n := by
        have h1 := List.sizeOf_lt_of_mem hmem
        rw [Prod.mk.sizeOf_spec] at h1
        rw [PrefixIndex.node.sizeOf_spec] at hsz
        omega
      obtain ⟨q, hq⟩ := hasDescendantRule_to_rulesAt n c hszc hwc hdc
      refine ⟨d :: q, ?_⟩
      rw [rulesAt_node_cons, getChild_of_mem_distinct cs d c hwf.1 hmem]
      exact hq

theorem wfIndex_walkTo :
    ∀ (p : List Char) (t m : PrefixIndex),
      wfIndex t = true → walkTo t p = some m → wfIndex m = true
  | [], t, m, hwf, hw => by
    rw [walkTo] at hw
    rw [← Option.some.inj hw]
    exact hwf
  | d :: ds, .node cs rs, m, hwf, hw => by
    rw [walkTo] at hw
    cases hgc : getChild (PrefixIndex.node cs rs).children d with
    | none => rw [hgc] at hw; cases hw
    | some c =>
      rw [hgc] at hw
      rw [wfIndex, Bool.and_eq_true] at hwf
      have hwc : wfIndex c = true :=
        wfChildren_mem cs d c hwf.2 (getChild_mem cs d c (by simpa [PrefixIndex.children] using hgc))
      exact wfIndex_walkTo ds c m hwc hw

theorem rulesAt_append :
    ∀ (p : List Char) (t : PrefixIndex) (q : List Char),
      rulesAt t (p ++ q) =
        match walkTo t p with
        | none => []
        | some m => rulesAt m q
  | [], t, q => by simp [walkTo]
  | d :: ds, .node cs rs, q => by
    rw [List.cons_append, rulesAt_node_cons, walkTo]
    cases hgc : getChild (PrefixIndex.node cs rs).children d with
    | none => simp [PrefixIndex.children] at hgc; rw [hgc]
    | some c =>
      simp only [PrefixIndex.children] at hgc
      rw [hgc]
      exact rulesAt_append ds c q

/-- `existsRuleThatStartsWithDigits` is true exactly when some node at or
below the end of the `digits` path carries a rule. -/
theorem existsRule_iff_subtree (digits : List Char) (idx : PrefixIndex)
    (hwf : wfIndex idx = true) :
    existsRuleThatStartsWithDigits digits idx = true ↔
      ∃ q, rulesAt idx (digits ++ q) ≠ [] := by
  rw [existsRuleThatStartsWithDigits]
  cases hw : walkTo idx digits with
  | none =>
    constructor
    · intro h
      cases h
    · rintro ⟨q, hq⟩
      rw [rulesAt_append digits idx q, hw] at hq
      exact absurd rfl hq
  | some m =>
    have hr : ∀ q, rulesAt idx (digits ++ q) = rulesAt m q := by
      intro q
      rw [rulesAt_append digits idx q, hw]
    constructor
    · intro h
      obtain ⟨q, hq⟩ := hasDescendantRule_to_rulesAt (sizeOf m) m le_rfl
        (wfIndex_walkTo digits idx m hwf hw) h
      exact ⟨q, by rw [hr q]; exact hq⟩
    · rintro ⟨q, hq⟩
      rw [hr q] at hq
      exact hasDescendantRule_of_rulesAt q m hq

/-- Over a built index, the fallback test holds exactly when some rule's
digit sequence extends `digits`. -/
theorem existsRule_buildIndex (digits : List Char) (rules : List PrefixRule) :
    existsRuleThatStartsWithDigits digits (buildIndex rules) = true ↔
      ∃ r ∈ rules, digits <+: r.pfx := by
  rw [existsRule_iff_subtree digits _ (wfIndex_buildIndex rules)]
  constructor
  · rintro ⟨q, hq⟩
    rw [rulesAt_buildIndex] at hq
    have : ¬∀ r ∈ rules, ¬(r.pfx == digits ++ q) = true :=
      fun hall => hq (List.filter_eq_nil_iff.mpr hall)
    push_neg at this
    obtain ⟨r, hr, hpred⟩ := this
    have hpfx : r.pfx = digits ++ q := by simpa [beq_iff_eq] using hpred
    exact ⟨r, hr, ⟨q, hpfx.symm⟩⟩
  · rintro ⟨r, hr, ⟨q, hq⟩⟩
    refine ⟨q, ?_⟩
    rw [rulesAt_buildIndex]
    intro hnil
    exact (List.filter_eq_nil_iff.mp hnil r hr) (by simp [beq_iff_eq, hq])

/-! ### Unfolding the classifier along each of its return paths -/

theorem isEmpty_false_of_ne_nil {α : Type} (l : List α) (h : l ≠ []) : l.isEmpty = false := by
  cases l with
  | nil => exact absurd rfl h
  | cons a as => rfl

theorem classify_of_exact (national : List Char) (idx : PrefixIndex) (r : PrefixRule)
    (h : national ≠ [])
    (hf : ((walkRules idx national).filter (fun r => !isDeadStatus r.status)).find?
        (fun r => r.pfx == national) = some r) :
    classifyUkNumber national idx = { cls := .NUMBER_VALID, provider := r.provider } := by
  have hm : walkRules idx national ≠ [] := by
    intro h0
    rw [h0] at hf
    simp at hf
  simp [classifyUkNumber, hf, isEmpty_false_of_ne_nil national h,
    isEmpty_false_of_ne_nil _ hm]

theorem classify_of_tooShort (national : List Char) (idx : PrefixIndex) (r : PrefixRule)
    (h : national ≠ [])
    (hf1 : ((walkRules idx national).filter (fun r => !isDeadStatus r.status)).find?
        (fun r => r.pfx == national) = none)
    (hf2 : ((walkRules idx national).filter (fun r => !isDeadStatus r.status)).find?
        (fun r => decide (national.length < r.totalLength)) = some r) :
    classifyUkNumber national idx = { cls := .NUMBER_TOO_SHORT, provider := r.provider } := by
  have hm : walkRules idx national ≠ [] := by
    intro h0
    rw [h0] at hf2
    simp at hf2
  simp [classifyUkNumber, hf1, hf2, isEmpty_false_of_ne_nil national h,
    isEmpty_false_of_ne_nil _ hm]

theorem classify_of_lengthMatch (national : List Char) (idx : PrefixIndex) (r : PrefixRule)
    (h : national ≠ [])
    (hf1 : ((walkRules idx national).filter (fun r => !isDeadStatus r.status)).find?
        (fun r => r.pfx == national) = none)
    (hf2 : ((walkRules idx national).filter (fun r => !isDeadStatus r.status)).find?
        (fun r => decide (national.length < r.totalLength)) = none)
    (hf3 : ((walkRules idx national).filter (fun r => !isDeadStatus r.status)).find?
        (fun r => r.totalLength == national.length) = some r) :
    classifyUkNumber national idx = { cls := .NUMBER_VALID, provider := r.provider } := by
  have hm : walkRules idx national ≠ [] := by
    intro h0
    rw [h0] at hf3
    simp at hf3
  simp [classifyUkNumber, hf1, hf2, hf3, isEmpty_false_of_ne_nil national h,
    isEmpty_false_of_ne_nil _ hm]

theorem classify_of_fallback (national : List Char) (idx : PrefixIndex)
    (h : national ≠ [])
    (hf1 : ((walkRules idx national).filter (fun r => !isDeadStatus r.status)).find?
        (fun r => r.pfx == national) = none)
    (hf2 : ((walkRules idx national).filter (fun r => !isDeadStatus r.status)).find?
        (fun r => decide (national.length < r.totalLength)) = none)
    (hf3 : ((walkRules idx national).filter (fun r => !isDeadStatus r.status)).find?
        (fun r => r.totalLength == national.length) = none) :
    classifyUkNumber national idx =
      if existsRuleThatStartsWithDigits national idx then
        { cls := .NUMBER_TOO_SHORT, provider := none }
      else { cls := .NUMBER_INVALID, provider := none } := by
  by_cases hm : walkRules idx national = []
  · simp [classifyUkNumber, hm, isEmpty_false_of_ne_nil national h]
  · simp [classifyUkNumber, hf1, hf2, hf3, isEmpty_false_of_ne_nil national h,
      isEmpty_false_of_ne_nil _ hm]

/-! ### Facts about the normaliser -/

theorem all_isDigit_filter (l : List Char) : (l.filter Char.isDigit).all Char.isDigit = true :=
  List.all_eq_true.mpr (fun _ ha => (List.mem_filter.mp ha).2)

theorem all_isDigit_drop (l : List Char) (n : Nat) (h : l.all Char.isDigit = true) :
    (l.drop n).all Char.isDigit = true :=
  List.all_eq_true.mpr (fun a ha => List.all_eq_true.mp h a (List.mem_of_mem_drop ha))

theorem head?_of_startsWith (c : Char) (s : List Char) (h : startsWith (c :: []) s = true) :
    s.head? = some c := by
  cases s with
  | nil => exact absurd h (by simp [startsWith])
  | cons a as =>
    rw [startsWith, Bool.and_eq_true] at h
    have hca : c = a := by simpa [beq_iff_eq] using h.1
    rw [List.head?_cons, hca]

theorem ne_nil_of_not_isEmpty {α : Type} (l : List α) (h : ¬(l.isEmpty = true)) : l ≠ [] :=
  fun h0 => h (List.isEmpty_iff.mpr h0)

/-- Every non-`none` output of the normaliser is a non-empty digit string whose
first character is `0` or `1`. -/
theorem normalise_postcondition (input x : List Char)
    (h : normaliseToUkNational input = some x) :
    x ≠ [] ∧ x.all Char.isDigit = true ∧ (x.head? = some '0' ∨ x.head? = some '1') := by
  have hall : (input.filter Char.isDigit).all Char.isDigit = true := all_isDigit_filter input
  simp only [normaliseToUkNational] at h
  split at h
  · exact absurd h (by simp)
  · rename_i hne
    split at h
    · rename_i h0044
      split at h
      · exact absurd h (by simp)
      · rename_i hrne
        split at h
        · rename_i hr0
          have hx := Option.some.inj h
          subst hx
          exact ⟨ne_nil_of_not_isEmpty _ hrne, all_isDigit_drop _ 4 hall,
            Or.inl (head?_of_startsWith '0' _ hr0)⟩
        · have hx := Option.some.inj h
          subst hx
          refine ⟨by simp, ?_, Or.inl (by rw [List.head?_cons])⟩
          rw [List.all_cons, Bool.and_eq_true]
          exact ⟨by decide, all_isDigit_drop _ 4 hall⟩
    · split at h
      · rename_i h44
        split at h
        · exact absurd h (by simp)
        · rename_i hrne
          split at h
          · rename_i hr0
            have hx := Option.some.inj h
            subst hx
            exact ⟨ne_nil_of_not_isEmpty _ hrne, all_isDigit_drop _ 2 hall,
              Or.inl (head?_of_startsWith '0' _ hr0)⟩
          · have hx := Option.some.inj h
            subst hx
            refine ⟨by simp, ?_, Or.inl (by rw [List.head?_cons])⟩
            rw [List.all_cons, Bool.and_eq_true]
            exact ⟨by decide, all_isDigit_drop _ 2 hall⟩
      · split at h
        · rename_i h1
          have hx := Option.some.inj h
          subst hx
          exact ⟨ne_nil_of_not_isEmpty _ hne, hall,
            Or.inr (head?_of_startsWith '1' _ h1)⟩
        · split at h
          · exact absurd h (by simp)
          · rename_i hnot0
            have h0 : startsWith ('0' :: []) (input.filter Char.isDigit) = true := by
              simpa using hnot0
            have hx := Option.some.inj h
            subst hx
            exact ⟨ne_nil_of_not_isEmpty _ hne, hall,
              Or.inl (head?_of_startsWith '0' _ h0)⟩

theorem isDeadStatus_iff (s : List Char) :
    isDeadStatus s = true ↔
      (lowerStr s = ('f' :: 'r' :: 'e' :: 'e' :: []) ∨
       ('u' :: 'n' :: 'a' :: 'v' :: 'a' :: 'i' :: 'l' :: 'a' :: 'b' :: 'l' :: 'e' :: []) <:+:
         lowerStr s ∨
       ('w' :: 'i' :: 't' :: 'h' :: 'd' :: 'r' :: 'a' :: 'w' :: 'n' :: []) <:+: lowerStr s) := by
  simp only [isDeadStatus, Bool.or_eq_true, containsSub_iff, beq_iff_eq]
  tauto

/-! ### Claim theorems -/

/-- C1 (code bug): with the rule `{prefix:"0800", totalLength:11,
status:"Free for allocation"}` alone, the classifier returns `NUMBER_VALID`
with that rule's provider for input `"0800 123 4567"`, because the dead-status
regex `^free$` matches only the exact status string `free` and therefore
treats `Free for allocation` as live; the spec (and the repository README)
require this status to be dead so that the input classifies `NUMBER_INVALID`. -/
theorem c1_free_for_allocation_bug :
    isDeadStatus ("Free for allocation".data) = false ∧
    isDeadStatus ("Free".data) = true ∧
    classifyUkNumber ((normaliseToUkNational ("0800 123 4567".data)).getD [])
        (buildIndex [⟨"0800".data, 11, "Free for allocation".data, some ("Acme".data)⟩]) =
      { cls := .NUMBER_VALID, provider := some ("Acme".data) } :=
  ⟨by decide, by decide, by decide⟩

/-- C3: a matched rule is dropped from `liveRules` exactly when its status,
lowered case-insensitively, is the exact string `free`, or contains
`unavailable` or `withdrawn` as a substring; the statuses `Allocated`,
`Allocated(Closed Range)`, `Protected`, `Reserved`, `Quarantined` and
`Designated` all count as live. -/
theorem c3_dead_status_iff (rs : List PrefixRule) (r : PrefixRule) :
    (r ∈ rs.filter (fun q => !isDeadStatus q.status) ↔
      r ∈ rs ∧
        ¬(lowerStr r.status = ('f' :: 'r' :: 'e' :: 'e' :: []) ∨
          ('u' :: 'n' :: 'a' :: 'v' :: 'a' :: 'i' :: 'l' :: 'a' :: 'b' :: 'l' :: 'e' :: []) <:+:
            lowerStr r.status ∨
          ('w' :: 'i' :: 't' :: 'h' :: 'd' :: 'r' :: 'a' :: 'w' :: 'n' :: []) <:+:
            lowerStr r.status)) ∧
    isDeadStatus ("Allocated".data) = false ∧
    isDeadStatus ("Allocated(Closed Range)".data) = false ∧
    isDeadStatus ("Protected".data) = false ∧
    isDeadStatus ("Reserved".data) = false ∧
    isDeadStatus ("Quarantined".data) = false ∧
    isDeadStatus ("Designated".data) = false := by
  refine ⟨?_, by decide, by decide, by decide, by decide, by decide, by decide⟩
  rw [List.mem_filter]
  apply and_congr_right
  intro _
  rw [Bool.not_eq_true']
  rw [Bool.eq_false_iff]
  exact not_congr (isDeadStatus_iff r.status)

/-- C8: the pipeline `classify (normalize s or-else empty) idx` is total and
returns one of the three classes for every string and every index, and an
empty canonical number classifies `NUMBER_INVALID` without consulting the
index. -/
theorem c8_totality (s : List Char) (idx : PrefixIndex) :
    ((classifyUkNumber ((normaliseToUkNational s).getD []) idx).cls = NumberClass.NUMBER_VALID ∨
     (classifyUkNumber ((normaliseToUkNational s).getD []) idx).cls = NumberClass.NUMBER_INVALID ∨
     (classifyUkNumber ((normaliseToUkNational s).getD []) idx).cls =
       NumberClass.NUMBER_TOO_SHORT) ∧
    classifyUkNumber [] idx = { cls := .NUMBER_INVALID, provider := none } := by
  constructor
  · cases hc : (classifyUkNumber ((normaliseToUkNational s).getD []) idx).cls with
    | NUMBER_VALID => exact Or.inl rfl
    | NUMBER_INVALID => exact Or.inr (Or.inl rfl)
    | NUMBER_TOO_SHORT => exact Or.inr (Or.inr rfl)
  · rfl

/-- C10: whenever the normaliser returns a non-null result, that result is a
non-empty all-digit string whose first character is `0` or `1`. -/
theorem c10_normaliser_postcondition (input x : List Char)
    (h : normaliseToUkNational input = some x) :
    x ≠ [] ∧ x.all Char.isDigit = true ∧ (x.head? = some '0' ∨ x.head? = some '1') :=
  normalise_postcondition input x h

/-- Witness for C10 at the concrete input `"+44 20 7946 0000"`. -/
theorem c10_normaliser_postcondition_witness :
    ("02079460000".data ≠ ([] : List Char)) ∧
    ("02079460000".data).all Char.isDigit = true ∧
    (("02079460000".data).head? = some '0' ∨ ("02079460000".data).head? = some '1') :=
  c10_normaliser_postcondition ("+44 20 7946 0000".data) ("02079460000".data) (by decide)

theorem startsWith_false_of_head_ne (p c : Char) (ps cs : List Char) (h : p ≠ c) :
    startsWith (p :: ps) (c :: cs) = false := by
  rw [startsWith, beq_eq_false_iff_ne.mpr h]
  simp

/-- C6: when the digit-stripped input starts with `0044` (or with the
plus-equivalent `44` run), the normaliser strips that international escape,
fails on an empty remainder, and otherwise restores the leading `0` access
digit unless the remainder already starts with `0`; in particular
`"+44 20 7946 0000"` normalises to `"02079460000"`. -/
theorem c6_international_normalisation (input : List Char) :
    (('0' :: '0' :: '4' :: '4' :: []) <+: input.filter Char.isDigit →
      normaliseToUkNational input =
        (if (input.filter Char.isDigit).drop 4 = [] then none
         else if ('0' :: []) <+: (input.filter Char.isDigit).drop 4 then
           some ((input.filter Char.isDigit).drop 4)
         else some ('0' :: (input.filter Char.isDigit).drop 4))) ∧
    (('4' :: '4' :: []) <+: input.filter Char.isDigit →
      normaliseToUkNational input =
        (if (input.filter Char.isDigit).drop 2 = [] then none
         else if ('0' :: []) <+: (input.filter Char.isDigit).drop 2 then
           some ((input.filter Char.isDigit).drop 2)
         else some ('0' :: (input.filter Char.isDigit).drop 2))) ∧
    normaliseToUkNational ("+44 20 7946 0000".data) = some ("02079460000".data) := by
  refine ⟨?_, ?_, by decide⟩
  · intro h0044
    have hsw : startsWith ('0' :: '0' :: '4' :: '4' :: []) (input.filter Char.isDigit) = true :=
      (startsWith_iff _ _).mpr h0044
    have hne : ¬((input.filter Char.isDigit).isEmpty = true) := by
      obtain ⟨t, ht⟩ := h0044
      rw [← ht]
      simp
    simp only [normaliseToUkNational]
    rw [if_neg hne, if_pos hsw]
    by_cases hnil : (input.filter Char.isDigit).drop 4 = []
    · rw [if_pos (List.isEmpty_iff.mpr hnil), if_pos hnil]
    · rw [if_neg (fun hI => hnil (List.isEmpty_iff.mp hI)), if_neg hnil]
      by_cases h0 : ('0' :: []) <+: (input.filter Char.isDigit).drop 4
      · rw [if_pos ((startsWith_iff _ _).mpr h0), if_pos h0]
      · rw [if_neg (fun hsw0 => h0 ((startsWith_iff _ _).mp hsw0)), if_neg h0]
  · intro h44
    obtain ⟨t, ht⟩ := h44
    have hsw : startsWith ('4' :: '4' :: []) (input.filter Char.isDigit) = true :=
      (startsWith_iff _ _).mpr ⟨t, ht⟩
    have hne : ¬((input.filter Char.isDigit).isEmpty = true) := by
      rw [← ht]
      simp
    have hno0044 : ¬(startsWith ('0' :: '0' :: '4' :: '4' :: [])
        (input.filter Char.isDigit) = true) := by
      rw [← ht]
      simp only [List.cons_append, List.nil_append]
      rw [startsWith_false_of_head_ne '0' '4' _ _ (by decide)]
      simp
    simp only [normaliseToUkNational]
    rw [if_neg hne, if_neg hno0044, if_pos hsw]
    by_cases hnil : (input.filter Char.isDigit).drop 2 = []
    · rw [if_pos (List.isEmpty_iff.mpr hnil), if_pos hnil]
    · rw [if_neg (fun hI => hnil (List.isEmpty_iff.mp hI)), if_neg hnil]
      by_cases h0 : ('0' :: []) <+: (input.filter Char.isDigit).drop 2
      · rw [if_pos ((startsWith_iff _ _).mpr h0), if_pos h0]
      · rw [if_neg (fun hsw0 => h0 ((startsWith_iff _ _).mp hsw0)), if_neg h0]

/-- Witness for C6: the `0044` escape at the concrete input `"0044123"`. -/
theorem c6_international_normalisation_witness :
    normaliseToUkNational ("0044123".data) = some ('0' :: "123".data) := by
  have h := (c6_international_normalisation ("0044123".data)).1 (by decide)
  exact h.trans (by decide)

/-- C7 (counterexample): `"0044123"` is itself a non-null normaliser output
(of input `"440044123"`), yet normalising it again strips the `0044` and
yields `"0123"`, so normalisation is not idempotent on canonical outputs. -/
theorem c7_idempotence_counterexample :
    normaliseToUkNational ("440044123".data) = some ("0044123".data) ∧
    normaliseToUkNational ("0044123".data) = some ("0123".data) ∧
    ("0123".data : List Char) ≠ ("0044123".data) :=
  ⟨by decide, by decide, by decide⟩

/-- C7 (amended): normalisation is a no-op on every non-null normaliser
output that does not itself start with the digits `0044`; outputs starting
with `0044` exist (see the counterexample) and are re-stripped, so the
restriction is necessary. -/
theorem c7_idempotence_amended (input x : List Char)
    (h : normaliseToUkNational input = some x)
    (h44 : ¬(('0' :: '0' :: '4' :: '4' :: []) <+: x)) :
    normaliseToUkNational x = some x := by
  obtain ⟨hne, hall, hhead⟩ := normalise_postcondition input x h
  have hfilter : x.filter Char.isDigit = x :=
    List.filter_eq_self.mpr (fun a ha => List.all_eq_true.mp hall a ha)
  rcases hhead with h0 | h1
  · obtain ⟨t, hx⟩ : ∃ t, x = '0' :: t := by
      cases x with
      | nil => exact absurd rfl hne
      | cons a as =>
        rw [List.head?_cons] at h0
        exact ⟨as, by rw [Option.some.inj h0]⟩
    subst hx
    simp only [normaliseToUkNational, hfilter]
    rw [if_neg (by simp)]
    rw [if_neg (fun hsw => h44 ((startsWith_iff _ _).mp hsw))]
    rw [if_neg (by rw [startsWith_false_of_head_ne '4' '0' _ _ (by decide)]; simp)]
    rw [if_neg (by rw [startsWith_false_of_head_ne '1' '0' _ _ (by decide)]; simp)]
    have hs : startsWith ('0' :: []) ('0' :: t) = true := by
      rw [startsWith]
      simp [startsWith]
    rw [if_neg (by rw [hs]; simp)]
  · obtain ⟨t, hx⟩ : ∃ t, x = '1' :: t := by
      cases x with
      | nil => exact absurd rfl hne
      | cons a as =>
        rw [List.head?_cons] at h1
        exact ⟨as, by rw [Option.some.inj h1]⟩
    subst hx
    simp only [normaliseToUkNational, hfilter]
    rw [if_neg (by simp)]
    rw [if_neg (by rw [startsWith_false_of_head_ne '0' '1' _ _ (by decide)]; simp)]
    rw [if_neg (by rw [startsWith_false_of_head_ne '4' '1' _ _ (by decide)]; simp)]
    have hs : startsWith ('1' :: []) ('1' :: t) = true := by
      rw [startsWith]
      simp [startsWith]
    rw [if_pos hs]

/-- Witness for C7 (amended) at the concrete input `"020 7946 0000"`. -/
theorem c7_idempotence_amended_witness :
    normaliseToUkNational ("02079460000".data) = some ("02079460000".data) :=
  c7_idempotence_amended ("020 7946 0000".data) ("02079460000".data) (by decide) (by decide)

theorem find?_first {α : Type} (p : α → Bool) :
    ∀ (l1 l2 : List α) (r : α), p r = true → (∀ x ∈ l1, p x = false) →
      (l1 ++ r :: l2).find? p = some r
  | [], l2, r, hr, _ => by simp [List.find?_cons, hr]
  | a :: as, l2, r, hr, hb => by
    have ha : p a = false := hb a (List.mem_cons_self _ _)
    simp only [List.cons_append, List.find?_cons, ha]
    exact find?_first p as l2 r hr (fun x hx => hb x (List.mem_cons_of_mem _ hx))

/-- C2: on a non-empty canonical digit string the classifier decides by
tiers over the live matched rules, first match winning within each tier in
traversal/insertion order: a live rule whose digits equal the whole input
gives `NUMBER_VALID` with its provider; otherwise the first live rule whose
`totalLength` exceeds the input length gives `NUMBER_TOO_SHORT` with its
provider; otherwise the first live rule whose `totalLength` equals the input
length gives `NUMBER_VALID` with its provider. -/
theorem c2_decision_order (national : List Char) (idx : PrefixIndex) (h : national ≠ []) :
    (∀ (r : PrefixRule) (l1 l2 : List PrefixRule),
        (walkRules idx national).filter (fun q => !isDeadStatus q.status) = l1 ++ r :: l2 →
        (r.pfx == national) = true →
        (∀ x ∈ l1, (x.pfx == national) = false) →
        classifyUkNumber national idx = { cls := .NUMBER_VALID, provider := r.provider }) ∧
    ((∀ x ∈ (walkRules idx national).filter (fun q => !isDeadStatus q.status),
          (x.pfx == national) = false) →
      ∀ (r : PrefixRule) (l1 l2 : List PrefixRule),
        (walkRules idx national).filter (fun q => !isDeadStatus q.status) = l1 ++ r :: l2 →
        decide (national.length < r.totalLength) = true →
        (∀ x ∈ l1, decide (national.length < x.totalLength) = false) →
        classifyUkNumber national idx = { cls := .NUMBER_TOO_SHORT, provider := r.provider }) ∧
    ((∀ x ∈ (walkRules idx national).filter (fun q => !isDeadStatus q.status),
          (x.pfx == national) = false) →
      (∀ x ∈ (walkRules idx national).filter (fun q => !isDeadStatus q.status),
          decide (national.length < x.totalLength) = false) →
      ∀ (r : PrefixRule) (l1 l2 : List PrefixRule),
        (walkRules idx national).filter (fun q => !isDeadStatus q.status) = l1 ++ r :: l2 →
        (r.totalLength == national.length) = true →
        (∀ x ∈ l1, (x.totalLength == national.length) = false) →
        classifyUkNumber national idx = { cls := .NUMBER_VALID, provider := r.provider }) := by
  refine ⟨?_, ?_, ?_⟩
  · intro r l1 l2 hsplit hr hb
    apply classify_of_exact national idx r h
    rw [hsplit]
    exact find?_first _ l1 l2 r hr hb
  · intro hnone r l1 l2 hsplit hr hb
    apply classify_of_tooShort national idx r h
    · exact List.find?_eq_none.mpr (fun x hx => by simp [hnone x hx])
    · rw [hsplit]
      exact find?_first _ l1 l2 r hr hb
  · intro hnone1 hnone2 r l1 l2 hsplit hr hb
    apply classify_of_lengthMatch national idx r h
    · exact List.find?_eq_none.mpr (fun x hx => by simp [hnone1 x hx])
    · exact List.find?_eq_none.mpr (fun x hx => by simp [hnone2 x hx])
    · rw [hsplit]
      exact find?_first _ l1 l2 r hr hb

/-- Witness for C2: the exact-match tier fires on input `"02"` with the single
rule `{prefix:"02", totalLength:11, status:"Allocated", provider:"BT"}`. -/
theorem c2_decision_order_witness :
    classifyUkNumber ("02".data)
        (buildIndex [⟨"02".data, 11, "Allocated".data, some ("BT".data)⟩]) =
      { cls := .NUMBER_VALID, provider := some ("BT".data) } :=
  (c2_decision_order ("02".data)
      (buildIndex [⟨"02".data, 11, "Allocated".data, some ("BT".data)⟩]) (by decide)).1
    ⟨"02".data, 11, "Allocated".data, some ("BT".data)⟩ [] []
    (by decide) (by decide) (by simp)

/-- C4: walking the index built from rules with non-empty digit prefixes along
any digit string accumulates, in order (shorter prefixes first, insertion
order within a node), exactly the rules whose digits are a prefix of the
string. -/
theorem c4_trie_walk_invariant (rules : List PrefixRule) (s : List Char)
    (h : ∀ r ∈ rules, r.pfx ≠ []) :
    walkRules (buildIndex rules) s =
      (nonEmptyPrefixes s).flatMap (fun p => rules.filter (fun r => r.pfx == p)) ∧
    (∀ r, r ∈ walkRules (buildIndex rules) s ↔ r ∈ rules ∧ r.pfx <+: s) := by
  refine ⟨walkRules_buildIndex rules s, fun r => ?_⟩
  rw [mem_walkRules_buildIndex]
  constructor
  · rintro ⟨h1, -, h3⟩
    exact ⟨h1, h3⟩
  · rintro ⟨h1, h3⟩
    exact ⟨h1, h r h1, h3⟩

/-- Witness for C4 with two overlapping rules and the digit string `"01512"`. -/
theorem c4_trie_walk_invariant_witness :
    walkRules (buildIndex [⟨"01".data, 11, "Allocated".data, none⟩,
        ⟨"0151".data, 11, "Allocated".data, none⟩]) ("01512".data) =
      (nonEmptyPrefixes ("01512".data)).flatMap
        (fun p => [(⟨"01".data, 11, "Allocated".data, none⟩ : PrefixRule),
          ⟨"0151".data, 11, "Allocated".data, none⟩].filter (fun r => r.pfx == p)) :=
  (c4_trie_walk_invariant _ _ (by decide)).1

/-- C5: when no live matched rule resolves through the three tiers, the
classifier over a built index returns `NUMBER_TOO_SHORT` with no provider
exactly when some rule (live or dead) lies in the subtree reached by
extending the input with further digits — that is, when some rule's digit
sequence extends the input — and `NUMBER_INVALID` with no provider
otherwise. -/
theorem c5_fallback (rules : List PrefixRule) (national : List Char)
    (h : national ≠ [])
    (hf1 : ((walkRules (buildIndex rules) national).filter
        (fun r => !isDeadStatus r.status)).find? (fun r => r.pfx == national) = none)
    (hf2 : ((walkRules (buildIndex rules) national).filter
        (fun r => !isDeadStatus r.status)).find?
        (fun r => decide (national.length < r.totalLength)) = none)
    (hf3 : ((walkRules (buildIndex rules) national).filter
        (fun r => !isDeadStatus r.status)).find?
        (fun r => r.totalLength == national.length) = none) :
    ((∃ r ∈ rules, national <+: r.pfx) →
      classifyUkNumber national (buildIndex rules) =
        { cls := .NUMBER_TOO_SHORT, provider := none }) ∧
    ((¬∃ r ∈ rules, national <+: r.pfx) →
      classifyUkNumber national (buildIndex rules) =
        { cls := .NUMBER_INVALID, provider := none }) := by
  have hc := classify_of_fallback national (buildIndex rules) h hf1 hf2 hf3
  constructor
  · intro hex
    rw [hc, if_pos ((existsRule_buildIndex national rules).mpr hex)]
  · intro hnex
    rw [hc, if_neg (fun htrue => hnex ((existsRule_buildIndex national rules).mp htrue))]

/-- Witness for C5: input `"0151"` with only a dead `Free` rule beneath it
falls back to `NUMBER_TOO_SHORT` with no provider. -/
theorem c5_fallback_witness :
    classifyUkNumber ("0151".data) (buildIndex [⟨"0151".data, 11, "Free".data, none⟩]) =
      { cls := .NUMBER_TOO_SHORT, provider := none } :=
  (c5_fallback [⟨"0151".data, 11, "Free".data, none⟩] ("0151".data)
    (by decide) (by decide) (by decide) (by decide)).1 (by decide)

/-! ### The monotonic prefix property -/

theorem le_maxTL : ∀ (rules : List PrefixRule) (r : PrefixRule), r ∈ rules →
    r.totalLength ≤ maxTL rules
  | q :: qs, r, hm => by
    rw [maxTL]
    rcases List.mem_cons.mp hm with h1 | h2
    · rw [h1]
      exact le_max_left _ _
    · exact le_trans (le_maxTL qs r h2) (le_max_right _ _)

theorem maxTL_mem : ∀ (rules : List PrefixRule), rules ≠ [] →
    ∃ r ∈ rules, maxTL rules = r.totalLength
  | q :: qs, _ => by
    rw [maxTL]
    by_cases hq : qs = []
    · subst hq
      refine ⟨q, List.mem_cons_self _ _, ?_⟩
      rw [maxTL]
      simp
    · obtain ⟨r, hr, hmax⟩ := maxTL_mem qs hq
      by_cases hcmp : q.totalLength ≤ maxTL qs
      · refine ⟨r, List.mem_cons_of_mem _ hr, ?_⟩
        rw [max_eq_right hcmp, hmax]
      · exact ⟨q, List.mem_cons_self _ _, max_eq_left (le_of_not_le hcmp)⟩

theorem le_sumTL : ∀ (rules : List PrefixRule) (r : PrefixRule), r ∈ rules →
    r.totalLength ≤ sumTL rules
  | q :: qs, r, hm => by
    rw [sumTL]
    rcases List.mem_cons.mp hm with h1 | h2
    · rw [h1]
      omega
    · have := le_sumTL qs r h2
      omega

/-- Core of the monotonic prefix property: from a rule of a non-degenerate
rule set whose digits lie on a digit path extending or matching `d` and whose
`totalLength` exceeds `len d`, a digit extension of `d` classifying
`NUMBER_VALID` can be built by padding with zeros up to the largest
`totalLength` live on that path. -/
theorem exists_valid_extension (rules : List PrefixRule)
    (hnd : ∀ r ∈ rules, r.pfx ≠ [] ∧ r.pfx.length ≤ r.totalLength ∧
      isDeadStatus r.status = false)
    (d base : List Char) (hd : d ≠ []) (hdb : d <+: base)
    (hbase : base.all Char.isDigit = true)
    (rseed : PrefixRule) (hm : rseed ∈ rules) (hsp : rseed.pfx <+: base)
    (hTL : d.length < rseed.totalLength) :
    ∃ e, e ≠ [] ∧ e.all Char.isDigit = true ∧
      (classifyUkNumber (d ++ e) (buildIndex rules)).cls = NumberClass.NUMBER_VALID := by
  set P := base ++ List.replicate (sumTL rules) '0' with hP
  set F := rules.filter (fun r => decide (r.pfx <+: P)) with hF
  have hseedP : rseed.pfx <+: P := hsp.trans (List.prefix_append base _)
  have hseedF : rseed ∈ F := List.mem_filter.mpr ⟨hm, by simp [hseedP]⟩
  set T := maxTL F with hT
  have hdT : d.length < T := lt_of_lt_of_le hTL (le_maxTL F rseed hseedF)
  obtain ⟨rstar, hstarF, hstarT⟩ := maxTL_mem F (List.ne_nil_of_mem hseedF)
  have hstarRules : rstar ∈ rules := (List.mem_filter.mp hstarF).1
  have hstarP : rstar.pfx <+: P := by
    have := (List.mem_filter.mp hstarF).2
    simpa using this
  have hstarTL : rstar.totalLength = T := by
    rw [hT, hstarT]
  have hTsum : T ≤ sumTL rules := by
    rw [hT, hstarT]
    exact le_sumTL rules rstar hstarRules
  have hPlen : T ≤ P.length := by
    rw [hP, List.length_append, List.length_replicate]
    omega
  have hdP : d <+: P := hdb.trans (List.prefix_append base _)
  obtain ⟨u, hu⟩ := hdP
  set e := u.take (T - d.length) with he
  have hulen : T - d.length ≤ u.length := by
    have hl : P.length = d.length + u.length := by
      rw [← hu, List.length_append]
    omega
  have helen : e.length = T - d.length := by
    rw [he, List.length_take_of_le hulen]
  have hene : e ≠ [] := by
    intro h0
    rw [h0] at helen
    simp at helen
    omega
  have hPd : P.all Char.isDigit = true := by
    rw [hP]
    refine List.all_eq_true.mpr (fun x hx => ?_)
    rcases List.mem_append.mp hx with h1 | h1
    · exact List.all_eq_true.mp hbase x h1
    · rw [List.eq_of_mem_replicate h1]
      decide
  have hud : u.all Char.isDigit = true := by
    refine List.all_eq_true.mpr (fun x hx => ?_)
    exact List.all_eq_true.mp hPd x (by rw [← hu]; exact List.mem_append_right d hx)
  have hed : e.all Char.isDigit = true := by
    rw [he]
    refine List.all_eq_true.mpr (fun x hx => ?_)
    exact List.all_eq_true.mp hud x (List.mem_of_mem_take hx)
  have hde : d ++ e = P.take T := by
    rw [← hu, List.take_append_eq_append_take,
      List.take_of_length_le (le_of_lt hdT), he]
  have hslen : (d ++ e).length = T := by
    rw [List.length_append, helen]
    omega
  have hsP : d ++ e <+: P := by
    rw [hde]
    exact takePre T P
  have hstarpfx : rstar.pfx <+: d ++ e := by
    rw [hde]
    refine List.prefix_take_iff.mpr ⟨hstarP, ?_⟩
    have h2 := (hnd rstar hstarRules).2.1
    omega
  have hstarMem : rstar ∈ walkRules (buildIndex rules) (d ++ e) :=
    (mem_walkRules_buildIndex rules (d ++ e) rstar).mpr
      ⟨hstarRules, (hnd rstar hstarRules).1, hstarpfx⟩
  have hstarLive : rstar ∈ (walkRules (buildIndex rules) (d ++ e)).filter
      (fun r => !isDeadStatus r.status) :=
    List.mem_filter.mpr ⟨hstarMem, by simp [(hnd rstar hstarRules).2.2]⟩
  have hsne : d ++ e ≠ [] := fun h0 => hd (List.append_eq_nil.mp h0).1
  have htier2 : ((walkRules (buildIndex rules) (d ++ e)).filter
      (fun r => !isDeadStatus r.status)).find?
      (fun r => decide ((d ++ e).length < r.totalLength)) = none := by
    apply List.find?_eq_none.mpr
    intro x hx
    have hxMem := (List.mem_filter.mp hx).1
    have hxP := (mem_walkRules_buildIndex rules (d ++ e) x).mp hxMem
    have hxF : x ∈ F := List.mem_filter.mpr ⟨hxP.1, by simp [hxP.2.2.trans hsP]⟩
    have hxT : x.totalLength ≤ T := by
      rw [hT]
      exact le_maxTL F x hxF
    simp [hslen]
    omega
  refine ⟨e, hene, hed, ?_⟩
  cases hf1 : ((walkRules (buildIndex rules) (d ++ e)).filter
      (fun r => !isDeadStatus r.status)).find? (fun r => r.pfx == (d ++ e)) with
  | some rx =>
    rw [classify_of_exact (d ++ e) (buildIndex rules) rx hsne hf1]
  | none =>
    have hTstar' : (rstar.totalLength == (d ++ e).length) = true := by
      simp [beq_iff_eq, hslen, hstarTL]
    have hsome : (((walkRules (buildIndex rules) (d ++ e)).filter
        (fun r => !isDeadStatus r.status)).find?
        (fun r => r.totalLength == (d ++ e).length)).isSome = true :=
      List.find?_isSome.mpr ⟨rstar, hstarLive, hTstar'⟩
    cases hf3 : ((walkRules (buildIndex rules) (d ++ e)).filter
        (fun r => !isDeadStatus r.status)).find?
        (fun r => r.totalLength == (d ++ e).length) with
    | none =>
      rw [hf3] at hsome
      simp at hsome
    | some rx =>
      rw [classify_of_lengthMatch (d ++ e) (buildIndex rules) rx hsne hf1 htier2 hf3]

/-- C9: over a non-degenerate rule set (every rule has a non-empty digit
string no longer than its `totalLength` and a live status), whenever the
classifier answers `NUMBER_TOO_SHORT` for a digit string there is an
extension of that string with further digits — a non-empty all-digit suffix —
that classifies `NUMBER_VALID`. -/
theorem c9_monotonic_prefix_property (rules : List PrefixRule) (d : List Char)
    (hnd : ∀ r ∈ rules, r.pfx ≠ [] ∧ r.pfx.length ≤ r.totalLength ∧
      isDeadStatus r.status = false)
    (hdig : ∀ r ∈ rules, r.pfx.all Char.isDigit = true)
    (hddig : d.all Char.isDigit = true)
    (h : (classifyUkNumber d (buildIndex rules)).cls = NumberClass.NUMBER_TOO_SHORT) :
    ∃ e, e ≠ [] ∧ e.all Char.isDigit = true ∧
      (classifyUkNumber (d ++ e) (buildIndex rules)).cls = NumberClass.NUMBER_VALID := by
  have hd : d ≠ [] := by
    intro h0
    subst h0
    simp [classifyUkNumber] at h
  cases hf1 : ((walkRules (buildIndex rules) d).filter
      (fun r => !isDeadStatus r.status)).find? (fun r => r.pfx == d) with
  | some rx =>
    rw [classify_of_exact d (buildIndex rules) rx hd hf1] at h
    simp at h
  | none =>
    cases hf2 : ((walkRules (buildIndex rules) d).filter
        (fun r => !isDeadStatus r.status)).find?
        (fun r => decide (d.length < r.totalLength)) with
    | some rx =>
      have hrlive := List.mem_of_find?_eq_some hf2
      have hpred := List.find?_some hf2
      have hrmem := (List.mem_filter.mp hrlive).1
      obtain ⟨hrules, hpne, hpd⟩ := (mem_walkRules_buildIndex rules d rx).mp hrmem
      exact exists_valid_extension rules hnd d d hd (List.prefix_refl d) hddig rx hrules hpd
        (by simpa using hpred)
    | none =>
      cases hf3 : ((walkRules (buildIndex rules) d).filter
          (fun r => !isDeadStatus r.status)).find?
          (fun r => r.totalLength == d.length) with
      | some rx =>
        rw [classify_of_lengthMatch d (buildIndex rules) rx hd hf1 hf2 hf3] at h
        simp at h
      | none =>
        have hc := classify_of_fallback d (buildIndex rules) hd hf1 hf2 hf3
        rw [hc] at h
        by_cases hex : existsRuleThatStartsWithDigits d (buildIndex rules) = true
        · obtain ⟨rsub, hrsub, hpre⟩ := (existsRule_buildIndex d rules).mp hex
          have hne : rsub.pfx ≠ d := by
            intro heq
            have hmem : rsub ∈ walkRules (buildIndex rules) d :=
              (mem_walkRules_buildIndex rules d rsub).mpr
                ⟨hrsub, (hnd rsub hrsub).1, by rw [heq]⟩
            have hlive : rsub ∈ (walkRules (buildIndex rules) d).filter
                (fun r => !isDeadStatus r.status) :=
              List.mem_filter.mpr ⟨hmem, by simp [(hnd rsub hrsub).2.2]⟩
            exact (List.find?_eq_none.mp hf1 rsub hlive) (by simp [beq_iff_eq, heq])
          have hlen : d.length < rsub.pfx.length := by
            obtain ⟨u, hu⟩ := hpre
            cases u with
            | nil =>
              rw [List.append_nil] at hu
              exact absurd hu.symm hne
            | cons a as =>
              rw [← hu, List.length_append, List.length_cons]
              omega
          exact exists_valid_extension rules hnd d rsub.pfx hd hpre (hdig rsub hrsub)
            rsub hrsub (List.prefix_refl _) (lt_of_lt_of_le hlen (hnd rsub hrsub).2.1)
        · rw [if_neg hex] at h
          simp at h

/-- Witness for C9: `"01"` is TOO_SHORT under the single live rule
`{prefix:"0151", totalLength:6}`, and some non-empty digit extension is
VALID. -/
theorem c9_monotonic_prefix_property_witness :
    ∃ e, e ≠ [] ∧ e.all Char.isDigit = true ∧
      (classifyUkNumber ("01".data ++ e)
        (buildIndex [⟨"0151".data, 6, "Allocated".data, none⟩])).cls =
        NumberClass.NUMBER_VALID :=
  c9_monotonic_prefix_property [⟨"0151".data, 6, "Allocated".data, none⟩] ("01".data)
    (by decide) (by decide) (by decide) (by decide)
